import Mathlib

set_option maxRecDepth 100000

/-!
Shallow embedding of the invoice-verification script `Verificar.py` and proofs about
its core: number parsing, total finding, layout classification, the per-layout
extractors and their reconciliation arithmetic.

Texts are `List Char`.  Python floats are modelled as exact rationals (every numeric
literal the script handles is a decimal string, and all comparisons in the script are
between such values).  A Python function that can raise an uncaught exception is
modelled with an `Option` result, `none` meaning the exception escapes.
-/

/-- Whitespace recognised by Python's `str.strip` and the regex class `\s`
(ASCII range; the script's texts are ASCII). -/
def isPySpace (c : Char) : Bool :=
  c = ' ' || c = '\t' || c = '\n' || c = '\r' || c = '\x0b' || c = '\x0c'

/-- Models Python `str.strip()`. -/
def pyTrim (cs : List Char) : List Char :=
  ((cs.dropWhile isPySpace).reverse.dropWhile isPySpace).reverse

/-- Models Python `str.lower()` (ASCII case folding). -/
def lowerStr (cs : List Char) : List Char :=
  cs.map Char.toLower

/-- Character occurrence test, models Python `c in s` for a single character. -/
def hasChar (x : Char) : List Char → Bool
  | [] => false
  | c :: cs => c = x || hasChar x cs

/-- Tests whether the second list begins with the first (a regex literal match). -/
def startsWith : List Char → List Char → Bool
  | [], _ => true
  | _ :: _, [] => false
  | p :: ps, c :: cs => p = c && startsWith ps cs

/-- Substring occurrence test, models Python `pat in s`. -/
def hasSub (pat : List Char) : List Char → Bool
  | [] => startsWith pat []
  | c :: cs => startsWith pat (c :: cs) || hasSub pat cs

/-- Value of a big-endian list of decimal digit characters. -/
def digitsToNat (cs : List Char) : Nat :=
  cs.foldl (fun a c => 10 * a + (c.toNat - 48)) 0

/-- Kernel-computable rational addition (the library operations on `ℚ` are marked
irreducible, which blocks their evaluation inside `decide`; these wrappers are proved
equal to the library operations below). -/
def rAdd (a b : ℚ) : ℚ :=
  mkRat (a.num * b.den + b.num * a.den) (a.den * b.den)

/-- Kernel-computable rational subtraction. -/
def rSub (a b : ℚ) : ℚ :=
  mkRat (a.num * b.den - b.num * a.den) (a.den * b.den)

/-- Kernel-computable rational multiplication. -/
def rMul (a b : ℚ) : ℚ :=
  mkRat (a.num * b.num) (a.den * b.den)

/-- Kernel-computable rational division (zero on a zero divisor, as in Lean). -/
def rDiv (a b : ℚ) : ℚ :=
  mkRat (a.num * b.den * b.num.sign) (a.den * b.num.natAbs)

/-- Digit part of the `float()` grammar: digits with at most one `'.'` and at least
one digit; anything else raises `ValueError`, i.e. `none`. -/
def pyFloatCore (sgn : Int) (r : List Char) : Option ℚ :=
  let ds := r.takeWhile (·.isDigit)
  let r2 := r.drop ds.length
  match r2 with
  | [] => if ds.isEmpty then none else some (mkRat (sgn * (digitsToNat ds : Int)) 1)
  | '.' :: fsr =>
    let fs := fsr.takeWhile (·.isDigit)
    if (fsr.drop fs.length).isEmpty && (!ds.isEmpty || !fs.isEmpty) then
      some (mkRat (sgn * ((digitsToNat ds : Int) * 10 ^ fs.length + (digitsToNat fs : Int)))
        (10 ^ fs.length))
    else none
  | _ => none

/-- Models Python `float()` on the decimal strings arising in this script: an optional
sign, then the digit part.  (Exponents, infinities and underscores never occur in the
script's inputs and are not modelled.) -/
def pyFloat (cs : List Char) : Option ℚ :=
  match cs with
  | c :: t =>
    if c = '-' then pyFloatCore (-1) t
    else if c = '+' then pyFloatCore 1 t
    else pyFloatCore 1 (c :: t)
  | [] => pyFloatCore 1 []

/-- Tail of the grouped-thousands regex `^\d{1,3}(\.\d{3})+$`: one or more groups of a
dot followed by exactly three digits, running to the end of the string.  A fourth digit
after a group makes the whole match fail (the regex cannot re-split the run), which the
`rest.isEmpty || _` disjunct reproduces. -/
def groupsOK : List Char → Bool
  | a :: b :: c :: d :: rest =>
      a = '.' && b.isDigit && c.isDigit && d.isDigit && (rest.isEmpty || groupsOK rest)
  | _ => false

/-- Match of `re.match(r"^\d{1,3}(\.\d{3})+$", num)` (the call sites strip the string
first, so `$` cannot hit a trailing newline): the leading digit run must have length
one to three and the remainder must be dot-separated three-digit groups. -/
def isGroupedThousands (cs : List Char) : Bool :=
  let lead := cs.takeWhile (·.isDigit)
  decide (1 ≤ lead.length) && decide (lead.length ≤ 3) && groupsOK (cs.drop lead.length)

/-- Models `re.sub(r"[€\s+]", "", num)`: removes euro signs, whitespace and plus signs
wherever they occur. -/
def stripSyms (cs : List Char) : List Char :=
  cs.filter (fun c => !(c = '€' || isPySpace c || c = '+'))

/-- Models `num.replace(",", ".")`. -/
def commaToDot (cs : List Char) : List Char :=
  cs.map (fun c => if c = ',' then '.' else c)

/-- Models `num.replace(".", "")`. -/
def dropDots (cs : List Char) : List Char :=
  cs.filter (fun c => !(c = '.'))

/-- The script's `parse_number`: separator resolution, symbol stripping, `float()`. -/
def parse_number (cs : List Char) : Option ℚ :=
  let n := pyTrim cs
  let n2 :=
    if hasChar ',' n && hasChar '.' n then commaToDot (dropDots n)
    else if hasChar ',' n then commaToDot n
    else if hasChar '.' n then (if isGroupedThousands n then dropDots n else n)
    else n
  pyFloat (stripSyms n2)

/-- Spec-side formalisation of the grouped-thousands group list, following the spec's
words "one or more groups of exactly three digits each preceded by `.`": either a
single final group or a group followed by more groups. -/
def specTail : List Char → Bool
  | [a, b, c, d] => a = '.' && b.isDigit && c.isDigit && d.isDigit
  | a :: b :: c :: d :: rest =>
      a = '.' && b.isDigit && c.isDigit && d.isDigit && specTail rest
  | _ => false

/-- Spec-side formalisation of the grouped-thousands shape, following the spec's words
"one to three leading digits followed by one or more groups": the lead length is chosen
from 1..3 rather than read off greedily. -/
def groupedSpec (cs : List Char) : Bool :=
  [1, 2, 3].any fun k =>
    (cs.take k).length == k && (cs.take k).all (·.isDigit) && specTail (cs.drop k)

/-- Modelled from the spec: the five-step NumberParser algorithm as the spec words it.
Step 4 strips currency symbols and whitespace everywhere and then strips leading plus
signs. -/
def parseNumberSpec (cs : List Char) : Option ℚ :=
  let n := pyTrim cs
  let n2 :=
    if hasChar ',' n && hasChar '.' n then commaToDot (dropDots n)
    else if hasChar ',' n then commaToDot n
    else if hasChar '.' n then (if groupedSpec n then dropDots n else n)
    else n
  pyFloat ((n2.filter (fun c => !(c = '€' || isPySpace c))).dropWhile (fun c => c = '+'))

/-- Drops an optional leading sign character. -/
def dropSign (cs : List Char) : List Char :=
  match cs with
  | c :: t => if c = '+' || c = '-' then t else cs
  | [] => []

/-- Drops an optional trailing percent or currency symbol. -/
def dropCurrencyTail (r : List Char) : List Char :=
  match r.reverse with
  | c :: rest => if c = '%' || c = '€' then rest.reverse else r
  | [] => r

/-- Core character of a numeric token: a digit or a separator. -/
def tokenCore (c : Char) : Bool :=
  c.isDigit || c = '.' || c = ','

/-- Numeric-token shape from the spec's data model (RawToken): an optional leading
sign, a nonempty run of digits and separators, optionally a trailing percent or
currency symbol. -/
def isNumericToken (cs : List Char) : Bool :=
  let r2 := dropCurrencyTail (dropSign cs)
  !r2.isEmpty && r2.all tokenCore

def tok1 : List Char := "1.451".toList

def tok2 : List Char := "1.234,56".toList

def tok3 : List Char := "12,5".toList

def tok4 : List Char := "1234.56".toList

def tok5 : List Char := "1.5".toList

def tokWit : List Char := "+1.234,56€".toList

/-- Keyword string constants (lower-case, as they appear after normalisation). -/
def kwTotal : List Char := "total".toList

def kwBaseImponible : List Char := "base imponible".toList

def kwIva : List Char := "iva".toList

def kwIrpf : List Char := "irpf".toList

def kwPrecioNeto : List Char := "precio neto".toList

def kwValorNeto : List Char := "valor neto".toList

def kwCantidad : List Char := "cantidad".toList

def kwPrecio : List Char := "precio".toList

def kwImporte : List Char := "importe".toList

def kwQty : List Char := "qty".toList

def kwNetPrice : List Char := "net price".toList

def kwNetWorth : List Char := "net worth".toList

def kwVat : List Char := "vat".toList

def kwPctSign : List Char := "%".toList

def kwGrossWorth : List Char := "gross worth".toList

def kwGross : List Char := "gross".toList

/-- Models Python `str.splitlines` on `'\n'`-separated text.  (Unlike Python this keeps
a final empty piece after a trailing newline; the extractors ignore empty lines, and the
two-line lookahead in the English extractor treats a missing next line as `""` exactly
as the script's `lines[i+1] if i+1 < len(lines) else ""` does.) -/
def splitLinesAux (acc : List Char) : List Char → List (List Char)
  | [] => [acc.reverse]
  | c :: rest =>
    if c = '\n' then acc.reverse :: splitLinesAux [] rest
    else splitLinesAux (c :: acc) rest

def splitLines (t : List Char) : List (List Char) :=
  splitLinesAux [] t

/-- One match of `\d+(?:[.,]\d+)?` anchored at the head of the input: the maximal digit
run, optionally extended by a separator and a second digit run.  Returns the token and
the rest of the input.  (The optional part never needs backtracking: any shorter match
would resume at a digit, which no continuation of this regex's call sites accepts.) -/
def numTokenAt (cs : List Char) : Option (List Char × List Char) :=
  let r1 := cs.takeWhile (·.isDigit)
  if r1.isEmpty then none
  else
    match cs.drop r1.length with
    | c :: rest2 =>
      if c = '.' || c = ',' then
        let r2 := rest2.takeWhile (·.isDigit)
        if r2.isEmpty then some (r1, c :: rest2)
        else some (r1 ++ c :: r2, rest2.drop r2.length)
      else some (r1, c :: rest2)
    | [] => some (r1, [])

/-- Models `re.findall(r"\d+(?:[.,]\d+)?", s)`: left-to-right non-overlapping scan. -/
def numScan : Nat → List Char → List (List Char)
  | 0, _ => []
  | _, [] => []
  | fuel + 1, c :: cs =>
    match numTokenAt (c :: cs) with
    | some (tok, rest) => tok :: numScan fuel rest
    | none => numScan fuel cs

/-- Final piece `(?:[.,]\d{2})` of the total-amount regex: a separator and two digits. -/
def sep2 : List Char → Option (List Char × List Char)
  | a :: b :: c :: rest =>
    if (a = '.' || a = ',') && b.isDigit && c.isDigit then some ([a, b, c], rest)
    else none
  | _ => none

/-- Greedy-with-backtracking match of `(?:[.,]\d{3})*(?:[.,]\d{2})`: prefer consuming a
three-digit group and continuing; if the continuation fails, fall back to reading the
final two-digit piece here. -/
def grpFinal : List Char → Option (List Char × List Char)
  | a :: b :: c :: d :: rest =>
    if (a = '.' || a = ',') && b.isDigit && c.isDigit && d.isDigit then
      match grpFinal rest with
      | some (t, r) => some (a :: b :: c :: d :: t, r)
      | none => sep2 (a :: b :: c :: d :: rest)
    else sep2 (a :: b :: c :: d :: rest)
  | cs => sep2 cs

/-- Greedy-with-backtracking match of `\d{1,3}` followed by `grpFinal`: try a lead of
three digits, then two, then one. -/
def leadNum (cs : List Char) : Option (List Char × List Char) :=
  let t3 : Option (List Char × List Char) :=
    match cs with
    | a :: b :: c :: rest =>
      if a.isDigit && b.isDigit && c.isDigit then
        (grpFinal rest).map (fun pr => (a :: b :: c :: pr.1, pr.2))
      else none
    | _ => none
  match t3 with
  | some x => some x
  | none =>
    let t2 : Option (List Char × List Char) :=
      match cs with
      | a :: b :: rest =>
        if a.isDigit && b.isDigit then (grpFinal rest).map (fun pr => (a :: b :: pr.1, pr.2))
        else none
      | _ => none
    match t2 with
    | some x => some x
    | none =>
      match cs with
      | a :: rest =>
        if a.isDigit then (grpFinal rest).map (fun pr => (a :: pr.1, pr.2)) else none
      | _ => none

/-- One attempted match of `total[s]?[^\d]*(\d{1,3}(?:[.,]\d{3})*(?:[.,]\d{2}))` at the
head of the input; returns the captured group and the rest after the whole match.  The
optional `s` and the `[^\d]*` both consume only non-digits, so together they amount to
skipping to the next digit; the group must start exactly there. -/
def totalAt (cs : List Char) : Option (List Char × List Char) :=
  if startsWith kwTotal cs then leadNum ((cs.drop 5).dropWhile (fun c => !c.isDigit))
  else none

/-- Left-to-right non-overlapping scan collecting all captured groups, models
`re.findall` of the total pattern. -/
def totalScan : Nat → List Char → List (List Char)
  | 0, _ => []
  | _, [] => []
  | fuel + 1, c :: cs =>
    match totalAt (c :: cs) with
    | some (tok, rest) => tok :: totalScan fuel rest
    | none => totalScan fuel cs

def totalMatches (t : List Char) : List (List Char) :=
  totalScan t.length (lowerStr t)

/-- The script's `find_total`.  The outer `Option` is the exception layer (`none` means
`parse_number` raised), the inner one is the Python `None` for "no match". -/
def find_total (t : List Char) : Option (Option ℚ) :=
  match (totalMatches t).getLast? with
  | none => some none
  | some m => (parse_number m).map some

/-- The five extraction strategies of the script. -/
inductive Layout
  | taxes
  | valor
  | simple
  | english
  | fallback
deriving DecidableEq

/-- The layout dispatch of the script's `main`: a chain of keyword tests on the
normalised text, first match wins. -/
def classify (t : List Char) : Layout :=
  if hasSub kwBaseImponible t && hasSub kwIva t then Layout.taxes
  else if hasSub kwPrecioNeto t && hasSub kwValorNeto t then Layout.valor
  else if hasSub kwCantidad t && hasSub kwPrecio t && hasSub kwImporte t then Layout.simple
  else if hasSub kwQty t || hasSub kwNetPrice t then Layout.english
  else Layout.fallback

/-- Metadata keywords that make the universal extractor skip a line. -/
def kwFecha : List Char := "fecha".toList

def kwNit : List Char := "nit".toList

def kwCi : List Char := "ci".toList

def kwCliente : List Char := "cliente".toList

def kwVendedor : List Char := "vendedor".toList

def kwFirma : List Char := "firma".toList

def kwSello : List Char := "sello".toList

def kwCondiciones : List Char := "condiciones".toList

def kwObservaciones : List Char := "observaciones".toList

def kwIban : List Char := "iban".toList

def kwNumSign : List Char := "n°".toList

def kwFactura : List Char := "factura".toList

def metaKeys : List (List Char) :=
  [kwFecha, kwNit, kwCi, kwCliente, kwVendedor, kwFirma, kwSello, kwCondiciones,
   kwObservaciones, kwIban, kwNumSign, kwFactura]

/-- Word character of the regex `\b` boundary (ASCII `\w`). -/
def wordChar (c : Char) : Bool :=
  c.isAlphanum || c = '_'

def dateSep (c : Char) : Bool :=
  c = '/' || c = '-'

/-- Match of the date pattern (one or two digits, a slash-or-dash separator, one or
two digits, a separator, two to four digits, between word boundaries) anchored at the
head, given the preceding character (if any) for the left boundary.  Each digit run
must be taken whole: a shorter take resumes at a digit, which neither the separator
class nor the right boundary accepts, so the bounded quantifiers reduce to length
checks on the maximal runs. -/
def dateAt (prev : Option Char) (cs : List Char) : Bool :=
  (match prev with
   | some p => !wordChar p
   | none => true) &&
  (let r1 := cs.takeWhile (·.isDigit)
   decide (1 ≤ r1.length) && decide (r1.length ≤ 2) &&
   (match cs.drop r1.length with
    | s1 :: rest1 =>
      dateSep s1 &&
      (let r2 := rest1.takeWhile (·.isDigit)
       decide (1 ≤ r2.length) && decide (r2.length ≤ 2) &&
       (match rest1.drop r2.length with
        | s2 :: rest2 =>
          dateSep s2 &&
          (let r3 := rest2.takeWhile (·.isDigit)
           decide (2 ≤ r3.length) && decide (r3.length ≤ 4) &&
           (match rest2.drop r3.length with
            | [] => true
            | c :: _ => !wordChar c))
        | [] => false))
    | [] => false))

/-- Models `re.search` of the date pattern: try every start position. -/
def dateSearch (prev : Option Char) : List Char → Bool
  | [] => false
  | c :: cs => dateAt prev (c :: cs) || dateSearch (some c) cs

def anyMetaHit (line : List Char) : Bool :=
  metaKeys.any (fun k => hasSub k line)

/-- Guard and verdict applied to the three parsed values of a fallback line: the
false-positive guard `total > 1000 and (qty < 10 and price < 100)` discards the line,
otherwise it contributes the line total and the verdict `abs(qty*price - total) < 0.5`. -/
def anyGuardCore (q p t : ℚ) : Option (ℚ × Bool) :=
  if 1000 < t ∧ q < 10 ∧ p < 100 then none
  else some (t, decide (|rSub (rMul q p) t| < mkRat 1 2))

/-- One line of the script's `process_invoice_any`: `some (t, verdict)` when the line
yields a line record contributing `t` to the running total together with its per-line
verdict; `none` when the line is skipped for any reason (blank, metadata keyword, date
pattern, fewer than three numeric tokens, parse failure, or the guard). -/
def anyLineRecord (raw : List Char) : Option (ℚ × Bool) :=
  let line := lowerStr (pyTrim raw)
  if line.isEmpty then none
  else if anyMetaHit line then none
  else if dateSearch none line then none
  else
    let nums := numScan line.length line
    if nums.length < 2 then none
    else if 3 ≤ nums.length then
      match nums.reverse with
      | tt :: pt :: qt :: _ =>
        match parse_number qt, parse_number pt, parse_number tt with
        | some q, some p, some t => anyGuardCore q p t
        | _, _, _ => none
      | _ => none
    else none

/-- Scan state of the English extractor: the five field variables of the script. -/
structure EnSt where
  qty : Option ℚ
  netPrice : Option ℚ
  netWorth : Option ℚ
  vat : Option ℚ
  gross : Option ℚ
deriving DecidableEq

def enInit : EnSt :=
  ⟨none, none, none, none, none⟩

/-- Models `re.search(r"(\d+(?:[.,]\d+)?)\s*%", line)`: find the first position whose
numeric token is followed by optional whitespace and a percent sign.  (As with
`numTokenAt`, shortening the token resumes at a digit, which neither `\s*` nor `%`
accepts, so no internal backtracking can rescue a failed start position.) -/
def vatScan : Nat → List Char → Option (List Char)
  | 0, _ => none
  | _, [] => none
  | fuel + 1, c :: cs =>
    match numTokenAt (c :: cs) with
    | some (tok, rest) =>
      match rest.dropWhile isPySpace with
      | '%' :: _ => some tok
      | _ => vatScan fuel cs
    | none => vatScan fuel cs

/-- One line of the script's `process_invoice_en`: the five keyword triggers in
program order, `none` when an unguarded numeric conversion raises. -/
def enStep (st : EnSt) (line nextLine : List Char) : Option EnSt := do
  let clean := lowerStr (pyTrim line)
  let two := line ++ ' ' :: nextLine
  let nums := numScan two.length two
  let q1 ← if hasSub kwQty clean then
      match nums.head? with
      | some tok => (parse_number tok).map some
      | none => pure st.qty
    else pure st.qty
  let np1 ← if hasSub kwNetPrice clean then
      match nums.head? with
      | some tok => (parse_number tok).map some
      | none => pure st.netPrice
    else pure st.netPrice
  let nw1 ← if hasSub kwNetWorth clean then
      match nums.head? with
      | some tok => (parse_number tok).map some
      | none => pure st.netWorth
    else pure st.netWorth
  let v1 ← if hasSub kwVat clean && hasSub kwPctSign clean then
      match vatScan line.length line with
      | some tok => (pyFloat tok).map some
      | none => pure st.vat
    else pure st.vat
  let g1 ← if hasSub kwGrossWorth clean || hasSub kwGross clean then
      match nums.getLast? with
      | some tok => (parse_number tok).map some
      | none => pure st.gross
    else pure st.gross
  pure ⟨q1, np1, nw1, v1, g1⟩

/-- Line loop of `process_invoice_en` with the script's one-line lookahead. -/
def enScan : EnSt → List (List Char) → Option EnSt
  | st, [] => some st
  | st, l :: rest =>
    match enStep st l (rest.headD []) with
    | some st2 => enScan st2 rest
    | none => none

/-- Python truthiness of an optional float: `None` and `0.0` are falsy. -/
def truthy (o : Option ℚ) : Bool :=
  match o with
  | some v => decide (¬ v = 0)
  | none => false

/-- The final `calc_net` expression of `process_invoice_en` (Python truthiness). -/
def enCalcNet (st : EnSt) : ℚ :=
  if truthy st.netWorth then st.netWorth.getD 0
  else if truthy st.qty && truthy st.netPrice then rMul (st.qty.getD 0) (st.netPrice.getD 0)
  else 0

/-- The final `calc_vat` expression of `process_invoice_en` (Python truthiness). -/
def enCalcVat (st : EnSt) (net : ℚ) : ℚ :=
  if truthy st.vat && decide (¬ net = 0) then rDiv (rMul net (st.vat.getD 0)) 100
  else if truthy st.gross && decide (¬ net = 0) then rSub (st.gross.getD 0) net
  else 0

/-- Result record of the English extractor. -/
structure EnResult where
  qty : Option ℚ
  netPrice : Option ℚ
  netWorth : Option ℚ
  vat : Option ℚ
  gross : Option ℚ
  calcNet : ℚ
  calcVat : ℚ
  calcTotal : ℚ
  verdictMatch : Bool
deriving DecidableEq

/-- The script's `process_invoice_en`; `none` when it raises an uncaught exception. -/
def process_invoice_en (t : List Char) : Option EnResult :=
  (enScan enInit (splitLines t)).map fun st =>
    let net := enCalcNet st
    let vat := enCalcVat st net
    ⟨st.qty, st.netPrice, st.netWorth, st.vat, st.gross, net, vat, rAdd net vat,
     truthy st.gross && decide (|rSub (rAdd net vat) (st.gross.getD 0)| < 1)⟩

/-- Character class `[\d.,-]` of the base-imponible capture group. -/
def baseGroupChar (c : Char) : Bool :=
  c.isDigit || c = '.' || c = ',' || c = '-'

/-- One attempted match of `base imponible[:\s]+([\d.,-]+)` at the head of the input.
The two character classes are disjoint, so the greedy `+` runs are the maximal runs. -/
def baseAt (cs : List Char) : Option (List Char) :=
  if startsWith kwBaseImponible cs then
    let r := cs.drop 14
    let ws := r.takeWhile (fun c => c = ':' || isPySpace c)
    if ws.isEmpty then none
    else
      let g := (r.drop ws.length).takeWhile baseGroupChar
      if g.isEmpty then none else some g
  else none

/-- Tail `[.,]?\d*` of the signed-number group: the optional separator is always taken
when present, since the digit run after it may be empty. -/
def optSepDigits (cs : List Char) : List Char :=
  match cs with
  | c :: rest => if c = '.' || c = ',' then c :: rest.takeWhile (·.isDigit) else []
  | [] => []

/-- Match of the group `([-]?\d+[.,]?\d*)` anchored at the head: a minus sign is taken
only when digits follow (otherwise the mandatory `\d+` fails with or without it). -/
def numGroupSigned (cs : List Char) : Option (List Char) :=
  match cs with
  | '-' :: rest =>
    let ds := rest.takeWhile (·.isDigit)
    if ds.isEmpty then none else some ('-' :: (ds ++ optSepDigits (rest.drop ds.length)))
  | _ =>
    let ds := cs.takeWhile (·.isDigit)
    if ds.isEmpty then none else some (ds ++ optSepDigits (cs.drop ds.length))

/-- Lazy `.*?:\s*` part of the IVA and IRPF patterns: find the nearest colon reachable
without crossing a newline (`.` does not match `\n`), try the signed-number group after
optional whitespace (which, as `\s`, may cross newlines), and on failure let `.*?` grow
past that colon. -/
def colonNumScan : Nat → List Char → Option (List Char)
  | 0, _ => none
  | _, [] => none
  | fuel + 1, c :: rest =>
    if c = ':' then
      match numGroupSigned (rest.dropWhile isPySpace) with
      | some g => some g
      | none => colonNumScan fuel rest
    else if c = '\n' then none
    else colonNumScan fuel rest

/-- One attempted match of `iva.*?:\s*([-]?\d+[.,]?\d*)` at the head of the input. -/
def ivaAt (cs : List Char) : Option (List Char) :=
  if startsWith kwIva cs then colonNumScan ((cs.drop 3).length + 1) (cs.drop 3)
  else none

/-- One attempted match of `irpf.*?:\s*([-]?\d+[.,]?\d*)` at the head of the input. -/
def irpfAt (cs : List Char) : Option (List Char) :=
  if startsWith kwIrpf cs then colonNumScan ((cs.drop 4).length + 1) (cs.drop 4)
  else none

/-- Models `re.search` for a pattern with match attempt `f`: try every start position
left to right and return the first successful capture. -/
def searchScan (f : List Char → Option (List Char)) : Nat → List Char → Option (List Char)
  | 0, _ => none
  | fuel + 1, cs =>
    match f cs with
    | some g => some g
    | none =>
      match cs with
      | [] => none
      | _ :: rest => searchScan f fuel rest

/-- All successful captures of `f` over all start positions, in document order (used to
state the first-match-wins property of `re.search`). -/
def searchScanAll (f : List Char → Option (List Char)) : Nat → List Char → List (List Char)
  | 0, _ => []
  | fuel + 1, cs =>
    match f cs with
    | some g =>
      g :: (match cs with
            | [] => []
            | _ :: rest => searchScanAll f fuel rest)
    | none =>
      match cs with
      | [] => []
      | _ :: rest => searchScanAll f fuel rest

/-- Result record of the tax-breakdown extractor.  `calcTot` is `none` exactly when no
base was extracted (a void result, not zero); `verdict` is only produced alongside
`calcTot`. -/
structure TaxResult where
  base : Option ℚ
  iva : Option ℚ
  irpf : Option ℚ
  reported : Option ℚ
  calcTot : Option ℚ
  verdict : Option Bool
deriving DecidableEq

/-- Exception-propagating parse of an optional captured token. -/
def optParse (g : Option (List Char)) : Option (Option ℚ) :=
  match g with
  | none => some none
  | some tok => (parse_number tok).map some

/-- Verdict value printed by the tax-breakdown extractor: Python
`reported_total and abs(calc - reported_total) < 1`. -/
def taxVerdictVal (cv : ℚ) (reported : Option ℚ) : Bool :=
  truthy reported && decide (|rSub cv (reported.getD 0)| < 1)

/-- The script's `process_invoice_with_taxes`; `none` when `parse_number` raises on a
captured group.  The searches run on the lower-cased text, which models the script's
`re.IGNORECASE` (the captured groups consist of digits, separators and signs, which
case folding leaves unchanged). -/
def mkTaxResult (base iva irpf reported : Option ℚ) : TaxResult :=
  let ct : Option ℚ := base.map fun b => rAdd (rAdd b (iva.getD 0)) (irpf.getD 0)
  ⟨base, iva, irpf, reported, ct, ct.map fun cv => taxVerdictVal cv reported⟩

def process_invoice_with_taxes (t : List Char) : Option TaxResult := do
  let tl := lowerStr t
  let base ← optParse (searchScan baseAt (tl.length + 1) tl)
  let iva ← optParse (searchScan ivaAt (tl.length + 1) tl)
  let irpf ← optParse (searchScan irpfAt (tl.length + 1) tl)
  let reported ← optParse (totalMatches t).getLast?
  pure (mkTaxResult base iva irpf reported)

/-- Models Python `str.replace` (nonempty pattern): replace non-overlapping occurrences
left to right. -/
def pyReplaceAux : Nat → List Char → List Char → List Char → List Char
  | 0, _, _, t => t
  | _, _, _, [] => []
  | fuel + 1, pat, rep, c :: cs =>
    if !pat.isEmpty && startsWith pat (c :: cs) then
      rep ++ pyReplaceAux fuel pat rep ((c :: cs).drop pat.length)
    else c :: pyReplaceAux fuel pat rep cs

def pyReplace (t pat rep : List Char) : List Char :=
  pyReplaceAux t.length pat rep t

/-- The wrong-to-right OCR correction table of `normalize_text`, in the script's
insertion order. -/
def wPrecioneto : List Char := "precioneto".toList

def wValorneto : List Char := "valorneto".toList

def wImporie : List Char := "imporie".toList

def wImporle : List Char := "imporle".toList

def wCantldad : List Char := "cantldad".toList

def wTotai : List Char := "totai".toList

def replTable : List (List Char × List Char) :=
  [(wPrecioneto, kwPrecioNeto), (wValorneto, kwValorNeto), (wImporie, kwImporte),
   (wImporle, kwImporte), (wCantldad, kwCantidad), (wTotai, kwTotal)]

/-- Sequential application of a replacement table. -/
def applyRepls (rs : List (List Char × List Char)) (t : List Char) : List Char :=
  rs.foldl (fun acc pr => pyReplace acc pr.1 pr.2) t

/-- The script's `normalize_text`: lower-case, then the six replacements in table
order. -/
def normalize_text (t : List Char) : List Char :=
  applyRepls replTable (lowerStr t)

/-- The correction table with `totai` moved first: a permutation of `replTable`. -/
def replTablePerm : List (List Char × List Char) :=
  [(wTotai, kwTotal), (wPrecioneto, kwPrecioNeto), (wValorneto, kwValorNeto),
   (wImporie, kwImporte), (wImporle, kwImporte), (wCantldad, kwCantidad)]

/-- Big-endian decimal digit characters of a positive natural (empty for zero); the
fuel argument bounds the recursion depth. -/
def natCharsAux : Nat → Nat → List Char
  | 0, _ => []
  | fuel + 1, m =>
    if m = 0 then [] else natCharsAux fuel (m / 10) ++ [Nat.digitChar (m % 10)]

/-- Decimal rendering of a natural number. -/
def natChars (m : Nat) : List Char :=
  if m = 0 then ['0'] else natCharsAux m m

/-- Fractional digit block of width `k` (zero-padded on the left); width one holding a
zero when `k = 0`, reproducing Python's `str(5.0) = "5.0"`. -/
def fracChars (fp k : Nat) : List Char :=
  if k = 0 then ['0']
  else List.replicate (k - (natCharsAux fp fp).length) '0' ++ natCharsAux fp fp

/-- Least exponent `j ≤ d` with `d ∣ 10 ^ j` (zero if none exists in range). -/
def decExp (d : Nat) : Nat :=
  (((List.range (d + 1)).find? (fun j => decide (d ∣ 10 ^ j))).getD 0)

/-- Models Python `str()` of a float holding an exact decimal value: optional sign,
integer part, a dot, then the fractional digits at the least exponent that makes the
scaled value an integer (Python prints the shortest digit string that round-trips, and
prints one zero decimal for integral values). -/
def renderFloat (q : ℚ) : List Char :=
  let a := |q|
  let k := decExp a.den
  let n := (rMul a (mkRat (10 ^ k) 1)).num.toNat
  (if q < 0 then ['-'] else []) ++ natChars (n / 10 ^ k) ++ '.' :: fracChars (n % 10 ^ k) k

/-- Concrete texts used in the example clauses of the theorems below. -/
def txtTotals : List Char := "total: 100,00 x total: 250,50".toList

def txtNoTotal : List Char := "subtotal only words".toList

def txtC2 : List Char := "base imponible: 100 iva: 21 cantidad precio importe".toList

def lineSimple : List Char := "3 widget 10,00 30,00".toList

def lineGuard : List Char := "2 x 5 x 1500,00".toList

def txtVatComma : List Char := "vat 12,5%".toList

def txtEnZero : List Char := "qty 2\nnet price 5\nnet worth 0".toList

def txtEnWit : List Char := "net worth 7\ngross 8".toList

def txtTaxes : List Char := "base imponible: 100,00\niva: 21,00\nirpf: -15,00\ntotal: 106,00".toList

def txtTwoIva : List Char := "iva: 10,00\niva: 20,00\ntotal: 111,00\ntotal: 222,00".toList

def txtOverlap : List Char := "totaimporie".toList

def tokComma1451 : List Char := "1,451".toList

/-- Every plus sign of the list is a single leading one: either there is no plus at
all, or the list is a plus followed by a plus-free tail. -/
def plusHeadInv (l : List Char) : Prop :=
  '+' ∉ l ∨ ∃ m, l = '+' :: m ∧ '+' ∉ m

def tok25050 : List Char := "250,50".toList

def tokQ3 : List Char := "3".toList

def tokP10 : List Char := "10,00".toList

def tokT30 : List Char := "30,00".toList

/-- The English-extractor result on `txtEnZero` (net worth extracted as zero). -/
def enR0 : EnResult :=
  ⟨some 2, some 5, some 0, none, none, 10, 0, 10, false⟩

/-- The English-extractor result on `txtEnWit`. -/
def enR1 : EnResult :=
  ⟨none, none, some 7, none, some 8, 7, 1, 8, true⟩

/-- The tax-extractor result on `txtTaxes`. -/
def taxR0 : TaxResult :=
  ⟨some 100, some 21, some (-15), some 106, some 106, some true⟩

/-- The tax-extractor result on `txtTwoIva`. -/
def taxR1 : TaxResult :=
  ⟨none, some 10, none, some 222, none, none⟩

/-! Theorems. -/

/-- The kernel-computable addition agrees with the library addition. -/
theorem rAdd_eq (a b : ℚ) : rAdd a b = a + b := by
  have ha : ((a.den : ℚ)) ≠ 0 := Nat.cast_ne_zero.mpr a.den_nz
  have hb : ((b.den : ℚ)) ≠ 0 := Nat.cast_ne_zero.mpr b.den_nz
  have ha' : ((a.num : ℚ)) = a * a.den := (div_eq_iff ha).mp (Rat.num_div_den a)
  have hb' : ((b.num : ℚ)) = b * b.den := (div_eq_iff hb).mp (Rat.num_div_den b)
  rw [rAdd, Rat.mkRat_eq_div]
  push_cast
  rw [div_eq_iff (mul_ne_zero ha hb), ha', hb']
  ring

/-- The kernel-computable subtraction agrees with the library subtraction. -/
theorem rSub_eq (a b : ℚ) : rSub a b = a - b := by
  have ha : ((a.den : ℚ)) ≠ 0 := Nat.cast_ne_zero.mpr a.den_nz
  have hb : ((b.den : ℚ)) ≠ 0 := Nat.cast_ne_zero.mpr b.den_nz
  have ha' : ((a.num : ℚ)) = a * a.den := (div_eq_iff ha).mp (Rat.num_div_den a)
  have hb' : ((b.num : ℚ)) = b * b.den := (div_eq_iff hb).mp (Rat.num_div_den b)
  rw [rSub, Rat.mkRat_eq_div]
  push_cast
  rw [div_eq_iff (mul_ne_zero ha hb), ha', hb']
  ring

/-- The kernel-computable multiplication agrees with the library multiplication. -/
theorem rMul_eq (a b : ℚ) : rMul a b = a * b := by
  have ha : ((a.den : ℚ)) ≠ 0 := Nat.cast_ne_zero.mpr a.den_nz
  have hb : ((b.den : ℚ)) ≠ 0 := Nat.cast_ne_zero.mpr b.den_nz
  have ha' : ((a.num : ℚ)) = a * a.den := (div_eq_iff ha).mp (Rat.num_div_den a)
  have hb' : ((b.num : ℚ)) = b * b.den := (div_eq_iff hb).mp (Rat.num_div_den b)
  rw [rMul, Rat.mkRat_eq_div]
  push_cast
  rw [div_eq_iff (mul_ne_zero ha hb), ha', hb']
  ring

/-- The kernel-computable division agrees with the library division. -/
theorem rDiv_eq (a b : ℚ) : rDiv a b = a / b := by
  by_cases hb0 : b = 0
  · subst hb0
    rw [rDiv]
    norm_num [Rat.mkRat_eq_div]
  · have hbn : b.num ≠ 0 := Rat.num_ne_zero.mpr hb0
    have ha : ((a.den : ℚ)) ≠ 0 := Nat.cast_ne_zero.mpr a.den_nz
    have hb : ((b.den : ℚ)) ≠ 0 := Nat.cast_ne_zero.mpr b.den_nz
    have ha' : ((a.num : ℚ)) = a * a.den := (div_eq_iff ha).mp (Rat.num_div_den a)
    have hb' : ((b.num : ℚ)) = b * b.den := (div_eq_iff hb).mp (Rat.num_div_den b)
    rw [rDiv, Rat.mkRat_eq_div]
    push_cast
    rw [div_eq_div_iff (by simp_all) (by simp_all), Int.cast_natAbs, Int.cast_abs]
    rcases lt_trichotomy b.num 0 with hN | hN | hN
    · rw [Int.sign_eq_neg_one_of_neg hN]
      have habs : |((b.num : ℚ))| = -(b.num : ℚ) := abs_of_neg (by exact_mod_cast hN)
      rw [habs, hb', ha']
      push_cast
      ring
    · exact absurd hN hbn
    · rw [Int.sign_eq_one_of_pos hN]
      have habs : |((b.num : ℚ))| = (b.num : ℚ) := abs_of_pos (by exact_mod_cast hN)
      rw [habs, hb', ha']
      push_cast
      ring

/-- C2: the layout classifier is total over normalised texts and picks exactly one of
the five extractors by testing the keyword predicates in fixed priority order — the
tax-breakdown pair wins over everything (even when the cantidad/precio/importe triple
is also present), then the precio-neto/valor-neto pair, then the triple, then the
English keywords, and otherwise the universal fallback; being a total function into
the five-variant `Layout`, exactly one extractor is selected for every input. -/
theorem layoutClassifier_priority (t : List Char) :
    (classify t = Layout.taxes ↔
      (hasSub kwBaseImponible t && hasSub kwIva t) = true) ∧
    (classify t = Layout.valor ↔
      ((hasSub kwBaseImponible t && hasSub kwIva t) = false ∧
       (hasSub kwPrecioNeto t && hasSub kwValorNeto t) = true)) ∧
    (classify t = Layout.simple ↔
      ((hasSub kwBaseImponible t && hasSub kwIva t) = false ∧
       (hasSub kwPrecioNeto t && hasSub kwValorNeto t) = false ∧
       (hasSub kwCantidad t && hasSub kwPrecio t && hasSub kwImporte t) = true)) ∧
    (classify t = Layout.english ↔
      ((hasSub kwBaseImponible t && hasSub kwIva t) = false ∧
       (hasSub kwPrecioNeto t && hasSub kwValorNeto t) = false ∧
       (hasSub kwCantidad t && hasSub kwPrecio t && hasSub kwImporte t) = false ∧
       (hasSub kwQty t || hasSub kwNetPrice t) = true)) ∧
    (classify t = Layout.fallback ↔
      ((hasSub kwBaseImponible t && hasSub kwIva t) = false ∧
       (hasSub kwPrecioNeto t && hasSub kwValorNeto t) = false ∧
       (hasSub kwCantidad t && hasSub kwPrecio t && hasSub kwImporte t) = false ∧
       (hasSub kwQty t || hasSub kwNetPrice t) = false)) := by
  unfold classify
  split_ifs with h1 h2 h3 h4 <;> simp_all [← Bool.not_eq_true]

/-- C3: `find_total` returns the parse of the last total-pattern match in document
order when there is at least one match, and the absent value (Python `None`, no error)
when there is none; on the two-total example it returns 250.50. -/
theorem findTotal_lastMatch :
    (∀ t : List Char,
      (totalMatches t = [] → find_total t = some none) ∧
      (∀ m, (totalMatches t).getLast? = some m →
        find_total t = (parse_number m).map some)) ∧
    find_total txtTotals = some (some (250.50 : ℚ)) ∧
    find_total txtNoTotal = some none := by
  refine ⟨fun t => ⟨fun h => ?_, fun m hm => ?_⟩, ?_, ?_⟩
  · simp [find_total, h]
  · simp [find_total, hm]
  · have h : find_total txtTotals = some (some (mkRat 501 2)) := by decide
    rw [h]
    norm_num [Rat.mkRat_eq_div]
  · decide

theorem findTotal_lastMatch_witness :
    (totalMatches txtTotals).getLast? = some tok25050 ∧
    find_total txtTotals = (parse_number tok25050).map some := by
  refine ⟨by decide, ?_⟩
  exact (findTotal_lastMatch.1 txtTotals).2 tok25050 (by decide)

/-- C4: contrary to the never-throw design, the English extractor aborts with an
uncaught `ValueError` on the line `"vat 12,5%"` — the VAT branch feeds the captured
token `"12,5"` to bare `float()`, which rejects comma decimals; in the model the
exception layer returns `none`. -/
theorem en_raises_on_comma_vat : process_invoice_en txtVatComma = none := by
  decide

/-- C9 counterexample: the two tables are permutations of each other, yet on the text
`"totaimporie"` (where a `totai` occurrence overlaps an `imporie` occurrence) the
permuted order produces a different result than the script's order, so the result is
not independent of the order of the replacements. -/
theorem normalize_order_counterexample :
    replTablePerm.Perm replTable ∧
    ¬ applyRepls replTablePerm (lowerStr txtOverlap) = normalize_text txtOverlap := by
  constructor
  · decide
  · decide

/-- C9 amended: `normalize_text` returns the lower-cased text with the six fixed
wrong-to-right replacements applied sequentially in the table's insertion order (the
input is never mutated — the model is a pure function); the order of application is
observable when occurrences of different patterns overlap, so the result is not
invariant under permuting the table. -/
theorem normalize_fixed_order (t : List Char) :
    normalize_text t =
      pyReplace (pyReplace (pyReplace (pyReplace (pyReplace (pyReplace (lowerStr t)
        wPrecioneto kwPrecioNeto) wValorneto kwValorNeto) wImporie kwImporte)
        wImporle kwImporte) wCantldad kwCantidad) wTotai kwTotal := by
  show applyRepls replTable (lowerStr t) = _
  rw [replTable]
  simp only [List.foldl_cons, List.foldl_nil, applyRepls]

/-- C7: in the universal fallback extractor, a line that passes the blank, metadata and
date filters and whose last three numeric tokens parse to quantity `q`, price `p` and
line total `t` is discarded — contributing nothing and producing no per-line verdict —
exactly when `t > 1000`, `q < 10` and `p < 100`; otherwise it contributes `t` to the
running total together with the per-line verdict `|q*p - t| < 0.5`. -/
theorem anyLine_guard (raw : List Char) (q p t : ℚ) (tt pt qt : List Char)
    (rest : List (List Char))
    (hblank : (lowerStr (pyTrim raw)).isEmpty = false)
    (hmeta : anyMetaHit (lowerStr (pyTrim raw)) = false)
    (hdate : dateSearch none (lowerStr (pyTrim raw)) = false)
    (hnums : (numScan (lowerStr (pyTrim raw)).length (lowerStr (pyTrim raw))).reverse
      = tt :: pt :: qt :: rest)
    (hq : parse_number qt = some q) (hp : parse_number pt = some p)
    (ht : parse_number tt = some t) :
    (anyLineRecord raw = none ↔ (1000 < t ∧ q < 10 ∧ p < 100)) ∧
    (¬ (1000 < t ∧ q < 10 ∧ p < 100) →
      anyLineRecord raw = some (t, decide (|q * p - t| < 1 / 2))) := by
  have hcore : anyLineRecord raw = anyGuardCore q p t := by
    have hlen : (numScan (lowerStr (pyTrim raw)).length (lowerStr (pyTrim raw))).length
        = rest.length + 3 := by
      have := congrArg List.length hnums
      simpa [Nat.add_comm, Nat.add_left_comm, Nat.add_assoc] using this
    have h2 : ¬ (numScan (lowerStr (pyTrim raw)).length (lowerStr (pyTrim raw))).length < 2 := by
      omega
    have h3 : 3 ≤ (numScan (lowerStr (pyTrim raw)).length (lowerStr (pyTrim raw))).length := by
      omega
    simp [anyLineRecord, hblank, hmeta, hdate, hnums, hq, hp, ht, h2, h3]
  rw [hcore]
  unfold anyGuardCore
  constructor
  · constructor
    · intro h
      by_contra hg
      rw [if_neg hg] at h
      exact Option.some_ne_none _ h
    · intro hg
      rw [if_pos hg]
  · intro hg
    rw [if_neg hg]
    have hdec : (decide (|rSub (rMul q p) t| < mkRat 1 2))
        = (decide (|q * p - t| < 1 / 2)) := by
      rw [decide_eq_decide, rSub_eq, rMul_eq,
        show (mkRat 1 2 : ℚ) = 1 / 2 by norm_num [Rat.mkRat_eq_div]]
    rw [hdec]

theorem anyLine_guard_witness :
    anyLineRecord lineSimple = some ((30 : ℚ), true) := by
  have h := (anyLine_guard lineSimple 3 10 30 tokT30 tokP10 tokQ3 []
    (by decide) (by decide)
    (by decide) (by decide)
    (by decide) (by decide)
    (by decide)).2 (by decide)
  rw [h]
  norm_num

/-- C5 amended: in the English extractor, after scanning all lines the calculated net
equals the extracted net worth if it is present and nonzero (Python truthiness), else
quantity times net price if both are present and nonzero, else 0; the calculated VAT
equals net times the VAT percent over 100 when a nonzero VAT percent was found and net
is nonzero, else gross minus net when a nonzero gross is present and net is nonzero
(so the percent-based calculation takes precedence), else 0; the calculated total is
net plus VAT; and the verdict is a match against gross with tolerance 1.0 only when a
nonzero gross was found. -/
theorem en_aggregation (t : List Char) (r : EnResult)
    (h : process_invoice_en t = some r) :
    r.calcNet = (if truthy r.netWorth then r.netWorth.getD 0
                 else if truthy r.qty && truthy r.netPrice then
                   r.qty.getD 0 * r.netPrice.getD 0
                 else 0) ∧
    r.calcVat = (if truthy r.vat && decide (¬ r.calcNet = 0) then
                   r.calcNet * r.vat.getD 0 / 100
                 else if truthy r.gross && decide (¬ r.calcNet = 0) then
                   r.gross.getD 0 - r.calcNet
                 else 0) ∧
    r.calcTotal = r.calcNet + r.calcVat ∧
    r.verdictMatch = (truthy r.gross && decide (|r.calcTotal - r.gross.getD 0| < 1)) := by
  unfold process_invoice_en at h
  cases hs : enScan enInit (splitLines t) with
  | none => rw [hs] at h; simp at h
  | some st =>
    rw [hs] at h
    simp only [Option.map_some'] at h
    cases h
    refine ⟨?_, ?_, ?_, ?_⟩ <;>
      simp only [enCalcNet, enCalcVat, rAdd_eq, rSub_eq, rMul_eq, rDiv_eq]

/-- C5 counterexample to the claim as stated: on `txtEnZero` the net worth is
extracted and present (`some 0`), yet the calculated net is not the net worth but
quantity times net price — Python truthiness treats the extracted `0.0` as absent. -/
theorem en_truthiness_counterexample :
    process_invoice_en txtEnZero = some enR0 ∧ enR0.netWorth = some 0 ∧
    enR0.calcNet = 10 ∧ ¬ enR0.calcNet = enR0.netWorth.getD 0 := by
  refine ⟨by decide, rfl, rfl, by decide⟩

theorem en_aggregation_witness :
    process_invoice_en txtEnWit = some enR1 ∧
    enR1.calcTotal = enR1.calcNet + enR1.calcVat := by
  refine ⟨by decide, ?_⟩
  exact (en_aggregation txtEnWit enR1 (by decide)).2.2.1

/-- C6: in the tax-breakdown extractor, when a base-imponible value is extracted the
calculated total equals base plus the extracted IVA (if present) plus the extracted
IRPF (if present, possibly negative) and is compared to the reported total with
tolerance 1.0; when no base is extracted no calculated total is produced at all (a
void result, not zero).  On the base=100, iva=21, irpf=-15, total=106 example the
calculated total is 106 and the verdict is a match. -/
theorem taxes_calcTotal :
    (∀ t r, process_invoice_with_taxes t = some r →
      (∀ b, r.base = some b →
        r.calcTot = some (b + r.iva.getD 0 + r.irpf.getD 0) ∧
        r.verdict = some (taxVerdictVal (b + r.iva.getD 0 + r.irpf.getD 0) r.reported)) ∧
      (r.base = none → r.calcTot = none ∧ r.verdict = none)) ∧
    process_invoice_with_taxes txtTaxes = some taxR0 ∧
    taxR0.calcTot = some 106 ∧ taxR0.verdict = some true := by
  refine ⟨fun t r h => ?_, by decide,
    by decide, rfl⟩
  simp only [process_invoice_with_taxes, bind, Option.bind_eq_some, pure] at h
  obtain ⟨b, hb, i, hi, f, hf, rep, hrep, hr⟩ := h
  cases hr
  constructor
  · intro b' hb'
    simp only [mkTaxResult] at hb' ⊢
    rw [hb']
    simp [rAdd_eq]
  · intro hb'
    simp only [mkTaxResult] at hb' ⊢
    rw [hb']
    simp

theorem taxes_calcTotal_witness :
    process_invoice_with_taxes txtTaxes = some taxR0 ∧
    taxR0.calcTot = some (100 + taxR0.iva.getD 0 + taxR0.irpf.getD 0) := by
  refine ⟨by decide, ?_⟩
  exact ((taxes_calcTotal.1 txtTaxes taxR0 (by decide)).1 100 rfl).1

/-- A `re.search` model returns the head of the list of all matches in document
order: first match wins. -/
theorem searchScan_eq_head (f : List Char → Option (List Char)) :
    ∀ fuel cs, searchScan f fuel cs = (searchScanAll f fuel cs).head? := by
  intro fuel
  induction fuel with
  | zero => intro cs; rfl
  | succ n ih =>
    intro cs
    cases hf : f cs with
    | some g => simp [searchScan, searchScanAll, hf]
    | none =>
      cases cs with
      | nil => simp [searchScan, searchScanAll, hf]
      | cons c rest => simp [searchScan, searchScanAll, hf, ih rest]

/-- C10: the occurrence used by the tax-breakdown extractor is asymmetric across
fields — base imponible, IVA and IRPF take the first match of their label patterns in
document order (the head of the match list), while the reported total takes the last
total-pattern match (the last of the match list); a text stating `iva: 10,00` early
and `iva: 20,00` late uses 10 for IVA, while its two totals 111 and 222 yield 222. -/
theorem taxes_first_vs_last :
    (∀ t r, process_invoice_with_taxes t = some r →
      optParse ((searchScanAll baseAt ((lowerStr t).length + 1) (lowerStr t)).head?)
        = some r.base ∧
      optParse ((searchScanAll ivaAt ((lowerStr t).length + 1) (lowerStr t)).head?)
        = some r.iva ∧
      optParse ((searchScanAll irpfAt ((lowerStr t).length + 1) (lowerStr t)).head?)
        = some r.irpf ∧
      optParse ((totalMatches t).getLast?) = some r.reported) ∧
    process_invoice_with_taxes txtTwoIva = some taxR1 ∧
    taxR1.iva = some 10 ∧ taxR1.reported = some 222 := by
  refine ⟨fun t r h => ?_, by decide, rfl, rfl⟩
  simp only [process_invoice_with_taxes, bind, Option.bind_eq_some, pure] at h
  obtain ⟨b, hb, i, hi, f, hf, rep, hrep, hr⟩ := h
  cases hr
  rw [← searchScan_eq_head, ← searchScan_eq_head, ← searchScan_eq_head]
  exact ⟨hb, hi, hf, hrep⟩

theorem taxes_first_vs_last_witness :
    optParse ((searchScanAll ivaAt ((lowerStr txtTwoIva).length + 1)
      (lowerStr txtTwoIva)).head?) = some taxR1.iva := by
  exact (taxes_first_vs_last.1 txtTwoIva taxR1 (by decide)).2.1

/-- The greedy regex-tail model and the spec's group-list description agree. -/
theorem groupsOK_eq_specTail (cs : List Char) : groupsOK cs = specTail cs := by
  induction cs using groupsOK.induct with
  | case1 a b c d rest ih =>
    cases rest with
    | nil => simp [groupsOK, specTail]
    | cons e t => simp [groupsOK, specTail, ih]
  | case2 cs h =>
    cases cs with
    | nil => rfl
    | cons a t =>
      cases t with
      | nil => rfl
      | cons b t2 =>
        cases t2 with
        | nil => rfl
        | cons c t3 =>
          cases t3 with
          | nil => rfl
          | cons d t4 => exact absurd rfl (h a b c d t4)

/-- A true `specTail` starts with a dot. -/
theorem specTail_head {l : List Char} (h : specTail l = true) : l.head? = some '.' := by
  cases l with
  | nil => simp [specTail] at h
  | cons a t =>
    cases t with
    | nil => simp [specTail] at h
    | cons b t2 =>
      cases t2 with
      | nil => simp [specTail] at h
      | cons c t3 =>
        cases t3 with
        | nil => simp [specTail] at h
        | cons d t4 =>
          cases t4 with
          | nil =>
            simp only [specTail, Bool.and_eq_true, decide_eq_true_eq] at h
            simp [h.1]
          | cons e t5 =>
            simp only [specTail, Bool.and_eq_true, decide_eq_true_eq] at h
            simp [h.1]

/-- If the first `k` characters satisfy `p` and the next one does not, the `takeWhile`
run is exactly those `k` characters. -/
theorem takeWhile_eq_take_of {p : Char → Bool} :
    ∀ (k : Nat) (cs : List Char), (cs.take k).all p = true →
      (∀ c, (cs.drop k).head? = some c → p c = false) →
      cs.takeWhile p = cs.take k := by
  intro k
  induction k with
  | zero =>
    intro cs _ hd
    cases cs with
    | nil => rfl
    | cons c t =>
      have := hd c (by simp)
      simp [List.takeWhile, this]
  | succ n ih =>
    intro cs ha hd
    cases cs with
    | nil => rfl
    | cons c t =>
      simp only [List.take_succ_cons, List.all_cons, Bool.and_eq_true] at ha
      simp only [List.drop_succ_cons] at hd
      simp [List.takeWhile, ha.1, ih t ha.2 hd]

/-- Dropping the length of the `takeWhile` run is `dropWhile`. -/
theorem drop_takeWhile_length (p : Char → Bool) :
    ∀ cs : List Char, cs.drop (cs.takeWhile p).length = cs.dropWhile p := by
  intro cs
  induction cs with
  | nil => rfl
  | cons c t ih =>
    by_cases h : p c = true
    · simp [List.takeWhile_cons, List.dropWhile_cons, h, ih]
    · simp only [Bool.not_eq_true] at h
      simp [List.takeWhile_cons, List.dropWhile_cons, h]

/-- The regex model of the grouped-thousands test agrees with the spec-side
formalisation. -/
theorem isGrouped_eq_groupedSpec (cs : List Char) :
    isGroupedThousands cs = groupedSpec cs := by
  rw [Bool.eq_iff_iff]
  unfold isGroupedThousands groupedSpec
  simp only [Bool.and_eq_true, decide_eq_true_eq, List.any_eq_true, beq_iff_eq]
  constructor
  · rintro ⟨⟨h1, h3⟩, hg⟩
    refine ⟨(cs.takeWhile (·.isDigit)).length, ?_, ?_⟩
    · simp only [List.mem_cons, List.not_mem_nil, or_false]
      omega
    · refine ⟨⟨?_, ?_⟩, ?_⟩
      · rw [← List.prefix_iff_eq_take.mp (List.takeWhile_prefix _)]
      · rw [← List.prefix_iff_eq_take.mp (List.takeWhile_prefix _)]
        simp only [List.all_eq_true]
        intro c hc
        exact List.mem_takeWhile_imp hc
      · rw [← groupsOK_eq_specTail, drop_takeWhile_length]
        rw [drop_takeWhile_length] at hg
        exact hg
  · rintro ⟨k, hk, ⟨hlen, hall⟩, htail⟩
    have hnd : ∀ c, (cs.drop k).head? = some c → (·.isDigit) c = false := by
      intro c hc
      have hh := specTail_head htail
      rw [hc] at hh
      have : c = '.' := Option.some.inj hh
      subst this
      decide
    have htw : cs.takeWhile (·.isDigit) = cs.take k := takeWhile_eq_take_of k cs hall hnd
    have hk' : k = 1 ∨ k = 2 ∨ k = 3 := by simpa using hk
    have hk13 : 1 ≤ k ∧ k ≤ 3 := by rcases hk' with rfl | rfl | rfl <;> omega
    refine ⟨⟨?_, ?_⟩, ?_⟩
    · rw [htw, hlen]; exact hk13.1
    · rw [htw, hlen]; exact hk13.2
    · rw [htw, hlen, groupsOK_eq_specTail]
      exact htail

/-- A list whose members all fail `p` is unchanged by `dropWhile p`. -/
theorem dropWhile_eq_self_of_not_mem {p : Char → Bool} {l : List Char}
    (h : ∀ c ∈ l, p c = false) : l.dropWhile p = l := by
  cases l with
  | nil => rfl
  | cons c t => simp [List.dropWhile_cons, h c (by simp)]

/-- Stripping is the identity on whitespace-free strings. -/
theorem pyTrim_eq_self {l : List Char} (h : ∀ c ∈ l, isPySpace c = false) :
    pyTrim l = l := by
  unfold pyTrim
  rw [dropWhile_eq_self_of_not_mem h,
    dropWhile_eq_self_of_not_mem (fun c hc => h c (List.mem_reverse.mp hc)),
    List.reverse_reverse]

/-- On a plus-free string the full symbol strip is the plus-free symbol strip. -/
theorem filter_no_plus {l : List Char} (h : '+' ∉ l) :
    stripSyms l = l.filter (fun c => !(c = '€' || isPySpace c)) := by
  unfold stripSyms
  apply List.filter_congr
  intro c hc
  have hne : ¬ c = '+' := fun e => h (e ▸ hc)
  simp [hne]

/-- Under the leading-plus invariant, stripping euro signs, whitespace and plus signs
everywhere is the same as stripping euro signs and whitespace and then dropping
leading plus signs. -/
theorem strip_eq_of_inv {l : List Char} (h : plusHeadInv l) :
    stripSyms l
      = (l.filter (fun c => !(c = '€' || isPySpace c))).dropWhile (fun c => c = '+') := by
  rcases h with h | ⟨m, rfl, hm⟩
  · rw [filter_no_plus h]
    refine (dropWhile_eq_self_of_not_mem ?_).symm
    intro c hc
    have hcm : c ∈ l := List.mem_of_mem_filter hc
    have hne : ¬ c = '+' := fun e => h (e ▸ hcm)
    simp [hne]
  · have hL : stripSyms ('+' :: m) = stripSyms m := by
      unfold stripSyms
      rw [List.filter_cons]
      norm_num
    have hR : ('+' :: m).filter (fun c => !(c = '€' || isPySpace c))
        = '+' :: m.filter (fun c => !(c = '€' || isPySpace c)) := by
      rw [List.filter_cons]
      norm_num
      decide
    rw [hL, filter_no_plus hm, hR, List.dropWhile_cons]
    simp only [decide_True, if_true]
    refine (dropWhile_eq_self_of_not_mem ?_).symm
    intro c hc
    have hcm : c ∈ m := List.mem_of_mem_filter hc
    have hne : ¬ c = '+' := fun e => hm (e ▸ hcm)
    simp [hne]

/-- `commaToDot` preserves the leading-plus invariant. -/
theorem inv_commaToDot {l : List Char} (h : plusHeadInv l) :
    plusHeadInv (commaToDot l) := by
  have hmem : ∀ {x : List Char}, '+' ∉ x → '+' ∉ commaToDot x := by
    intro x hx hmm
    unfold commaToDot at hmm
    obtain ⟨c, hc, he⟩ := List.mem_map.mp hmm
    by_cases hcc : c = ','
    · rw [if_pos hcc] at he; exact absurd he (by decide)
    · rw [if_neg hcc] at he; exact hx (he ▸ hc)
  rcases h with h | ⟨m, rfl, hm⟩
  · exact Or.inl (hmem h)
  · refine Or.inr ⟨commaToDot m, ?_, hmem hm⟩
    unfold commaToDot
    rw [List.map_cons]
    norm_num
    decide

/-- `dropDots` preserves the leading-plus invariant. -/
theorem inv_dropDots {l : List Char} (h : plusHeadInv l) :
    plusHeadInv (dropDots l) := by
  have hmem : ∀ {x : List Char}, '+' ∉ x → '+' ∉ dropDots x := by
    intro x hx hmm
    exact hx (List.mem_of_mem_filter hmm)
  rcases h with h | ⟨m, rfl, hm⟩
  · exact Or.inl (hmem h)
  · refine Or.inr ⟨dropDots m, ?_, hmem hm⟩
    unfold dropDots
    rw [List.filter_cons]
    norm_num
    decide

/-- Digits are not whitespace. -/
theorem isPySpace_of_isDigit {c : Char} (h : c.isDigit = true) : isPySpace c = false := by
  by_contra hs
  rw [Bool.not_eq_false] at hs
  unfold isPySpace at hs
  simp only [Bool.or_eq_true, decide_eq_true_eq, or_assoc] at hs
  rcases hs with h1 | h1 | h1 | h1 | h1 | h1 <;> subst h1 <;> exact absurd h (by decide)

/-- Token-class characters (core, percent or euro) are not whitespace. -/
theorem nonspace_of_rclass {c : Char}
    (h : tokenCore c = true ∨ c = '%' ∨ c = '€') : isPySpace c = false := by
  rcases h with htc | rfl | rfl
  · unfold tokenCore at htc
    simp only [Bool.or_eq_true, decide_eq_true_eq, or_assoc] at htc
    rcases htc with hd | h1 | h1
    · exact isPySpace_of_isDigit hd
    · subst h1; decide
    · subst h1; decide
  · decide
  · decide

/-- A plus sign is not a token-class character. -/
theorem plus_not_rclass : ¬ (tokenCore '+' = true ∨ '+' = '%' ∨ '+' = '€') := by decide

/-- A numeric token contains no whitespace and satisfies the leading-plus
invariant. -/
theorem token_shape {cs : List Char} (h : isNumericToken cs = true) :
    (∀ c ∈ cs, isPySpace c = false) ∧ plusHeadInv cs := by
  unfold isNumericToken at h
  simp only [Bool.and_eq_true] at h
  have h2 : ∀ c ∈ dropCurrencyTail (dropSign cs), tokenCore c = true :=
    fun c hc => by
      have := h.2
      rw [List.all_eq_true] at this
      exact this c hc
  have hr : ∀ c ∈ dropSign cs, tokenCore c = true ∨ c = '%' ∨ c = '€' := by
    intro c hc
    cases hrev : (dropSign cs).reverse with
    | nil =>
      have hds : dropSign cs = [] := by
        rw [← List.reverse_reverse (dropSign cs), hrev]; rfl
      rw [hds] at hc
      simp at hc
    | cons c0 rest =>
      have hds : dropSign cs = rest.reverse ++ [c0] := by
        rw [← List.reverse_reverse (dropSign cs), hrev, List.reverse_cons]
      by_cases hc0 : (c0 = '%' || c0 = '€') = true
      · have hr2 : dropCurrencyTail (dropSign cs) = rest.reverse := by
          unfold dropCurrencyTail
          rw [hrev]
          simp [hc0]
        rw [hds] at hc
        rcases List.mem_append.mp hc with hcl | hcr
        · exact Or.inl (h2 c (by rw [hr2]; exact hcl))
        · simp only [List.mem_singleton] at hcr
          subst hcr
          simp only [Bool.or_eq_true, decide_eq_true_eq] at hc0
          exact Or.inr hc0
      · have hr2 : dropCurrencyTail (dropSign cs) = dropSign cs := by
          unfold dropCurrencyTail
          rw [hrev]
          simp [hc0, ← hrev]
        exact Or.inl (h2 c (by rw [hr2]; exact hc))
  constructor
  · cases cs with
    | nil => simp
    | cons a t =>
      by_cases hsign : (a = '+' || a = '-') = true
      · have hds : dropSign (a :: t) = t := by simp [dropSign, hsign]
        rw [hds] at hr
        intro c hc
        rcases List.mem_cons.mp hc with rfl | hct
        · simp only [Bool.or_eq_true, decide_eq_true_eq] at hsign
          rcases hsign with rfl | rfl <;> decide
        · exact nonspace_of_rclass (hr c hct)
      · have hds : dropSign (a :: t) = a :: t := by
          simp only [Bool.or_eq_true, decide_eq_true_eq, not_or] at hsign
          simp [dropSign, hsign.1, hsign.2]
        rw [hds] at hr
        intro c hc
        exact nonspace_of_rclass (hr c hc)
  · cases cs with
    | nil => exact Or.inl (by simp)
    | cons a t =>
      by_cases hplus : a = '+'
      · subst hplus
        have hds : dropSign ('+' :: t) = t := by simp [dropSign]
        rw [hds] at hr
        exact Or.inr ⟨t, rfl, fun hmm => plus_not_rclass (hr '+' hmm)⟩
      · refine Or.inl (fun hmm => ?_)
        rcases List.mem_cons.mp hmm with he | hct
        · exact hplus he.symm
        · by_cases hminus : a = '-'
          · subst hminus
            have hds : dropSign ('-' :: t) = t := by simp [dropSign]
            rw [hds] at hr
            exact plus_not_rclass (hr '+' hct)
          · have hds : dropSign (a :: t) = a :: t := by
              simp [dropSign, hplus, hminus]
            rw [hds] at hr
            exact plus_not_rclass (hr '+' (List.mem_cons_of_mem a hct))

/-- C1: on numeric tokens, `parse_number` follows the spec's five-step
separator-resolution algorithm (formalised independently as `parseNumberSpec`, with the
grouped-thousands shape written as the spec words it), and it maps the five documented
examples to 1451.0, 1234.56, 12.5, 1234.56 and 1.5 respectively. -/
theorem parseNumber_followsSpec :
    (∀ cs, isNumericToken cs = true → parse_number cs = parseNumberSpec cs) ∧
    parse_number tok1 = some 1451 ∧
    parse_number tok2 = some (1234.56 : ℚ) ∧
    parse_number tok3 = some (12.5 : ℚ) ∧
    parse_number tok4 = some (1234.56 : ℚ) ∧
    parse_number tok5 = some (1.5 : ℚ) := by
  refine ⟨fun cs htok => ?_, by decide, ?ex2, ?ex3, ?ex4, ?ex5⟩
  case ex2 =>
    have h : parse_number tok2 = some (mkRat 30864 25) := by decide
    rw [h]
    norm_num [Rat.mkRat_eq_div]
  case ex3 =>
    have h : parse_number tok3 = some (mkRat 25 2) := by decide
    rw [h]
    norm_num [Rat.mkRat_eq_div]
  case ex4 =>
    have h : parse_number tok4 = some (mkRat 30864 25) := by decide
    rw [h]
    norm_num [Rat.mkRat_eq_div]
  case ex5 =>
    have h : parse_number tok5 = some (mkRat 3 2) := by decide
    rw [h]
    norm_num [Rat.mkRat_eq_div]
  obtain ⟨hsp, hinv⟩ := token_shape htok
  have htrim : pyTrim cs = cs := pyTrim_eq_self hsp
  simp only [parse_number, parseNumberSpec, htrim, isGrouped_eq_groupedSpec]
  refine congrArg pyFloat (strip_eq_of_inv ?_)
  split_ifs <;>
    first
      | exact inv_commaToDot (inv_dropDots hinv)
      | exact inv_commaToDot hinv
      | exact inv_dropDots hinv
      | exact hinv

theorem parseNumber_followsSpec_witness :
    isNumericToken tokWit = true ∧ parse_number tokWit = parseNumberSpec tokWit :=
  ⟨by decide, parseNumber_followsSpec.1 tokWit (by decide)⟩

/-- Horner evaluation of a big-endian digit list in terms of `Nat.ofDigits`. -/
theorem foldl_mul_add (l : List ℕ) : ∀ a : ℕ,
    List.foldl (fun acc d => 10 * acc + d) a l
      = a * 10 ^ l.length + Nat.ofDigits 10 l.reverse := by
  induction l with
  | nil => intro a; simp [Nat.ofDigits]
  | cons d t ih =>
    intro a
    simp only [List.foldl_cons, List.length_cons, List.reverse_cons]
    rw [ih (10 * a + d), Nat.ofDigits_append, Nat.ofDigits_singleton, List.length_reverse]
    ring

/-- The fuel-based digit rendering agrees with `Nat.digits`. -/
theorem natCharsAux_eq : ∀ fuel m, m ≤ fuel →
    natCharsAux fuel m = (Nat.digits 10 m).reverse.map Nat.digitChar := by
  intro fuel
  induction fuel with
  | zero =>
    intro m hm
    interval_cases m
    simp [natCharsAux]
  | succ f ih =>
    intro m hm
    by_cases h0 : m = 0
    · subst h0
      simp [natCharsAux]
    · rw [natCharsAux, if_neg h0,
        ih (m / 10) (by
          have := Nat.div_lt_self (Nat.pos_of_ne_zero h0) (by norm_num : 1 < 10)
          omega),
        Nat.digits_def' (by norm_num : 1 < 10) (Nat.pos_of_ne_zero h0)]
      simp

/-- Decoding a digit character. -/
theorem digitChar_toNat {d : ℕ} (h : d < 10) : (Nat.digitChar d).toNat - 48 = d := by
  interval_cases d <;> rfl

theorem digitChar_isDigit {d : ℕ} (h : d < 10) : (Nat.digitChar d).isDigit = true := by
  interval_cases d <;> decide

/-- Horner evaluation is unchanged by encoding and decoding each digit. -/
theorem foldl_digitChar {l : List ℕ} (hl : ∀ d ∈ l, d < 10) : ∀ a : ℕ,
    List.foldl (fun acc d => 10 * acc + ((Nat.digitChar d).toNat - 48)) a l
      = List.foldl (fun acc d => 10 * acc + d) a l := by
  induction l with
  | nil => intro a; rfl
  | cons d t ih =>
    intro a
    simp only [List.foldl_cons]
    rw [digitChar_toNat (hl d (by simp))]
    exact ih (fun x hx => hl x (by simp [hx])) _

/-- Decoding the rendered digit string of a digit list recovers its value. -/
theorem digitsToNat_map_digits {l : List ℕ} (hl : ∀ d ∈ l, d < 10) :
    digitsToNat (l.reverse.map Nat.digitChar) = Nat.ofDigits 10 l := by
  unfold digitsToNat
  rw [List.foldl_map,
    foldl_digitChar (fun d hd => hl d (List.mem_reverse.mp hd)),
    foldl_mul_add, List.reverse_reverse]
  simp

/-- Decoding the rendered digit string of a natural number recovers it. -/
theorem digitsToNat_natChars (m : ℕ) : digitsToNat (natChars m) = m := by
  by_cases h0 : m = 0
  · subst h0; decide
  · rw [natChars, if_neg h0, natCharsAux_eq m m le_rfl,
      digitsToNat_map_digits (fun d hd => Nat.digits_lt_base (by norm_num) hd),
      Nat.ofDigits_digits]

/-- The rendered digit string of a natural number consists of digits. -/
theorem natChars_digits (m : ℕ) : ∀ c ∈ natChars m, c.isDigit = true := by
  by_cases h0 : m = 0
  · subst h0
    intro c hc
    have : c = '0' := by simpa [natChars] using hc
    rw [this]
    decide
  · rw [natChars, if_neg h0, natCharsAux_eq m m le_rfl]
    intro c hc
    obtain ⟨d, hd, he⟩ := List.mem_map.mp hc
    subst he
    exact digitChar_isDigit (Nat.digits_lt_base (by norm_num) (List.mem_reverse.mp hd))

theorem natChars_ne_nil (m : ℕ) : natChars m ≠ [] := by
  by_cases h0 : m = 0
  · subst h0; simp [natChars]
  · rw [natChars, if_neg h0, natCharsAux_eq m m le_rfl]
    simp [Nat.digits_ne_nil_iff_ne_zero.mpr h0]

/-- A number below `10 ^ k` has at most `k` digits. -/
theorem digits_length_le {m k : ℕ} (h : m < 10 ^ k) : (Nat.digits 10 m).length ≤ k := by
  by_cases h0 : m = 0
  · subst h0; simp
  · by_contra hlt
    push_neg at hlt
    have h1 : 10 ^ (k + 1) ≤ 10 ^ (Nat.digits 10 m).length :=
      Nat.pow_le_pow_right (by norm_num) hlt
    have h2 : 10 ^ (Nat.digits 10 m).length ≤ 10 * m :=
      Nat.base_pow_length_digits_le 10 m (by norm_num) h0
    have h3 : 10 * 10 ^ k ≤ 10 * m := by
      calc 10 * 10 ^ k = 10 ^ (k + 1) := by ring
      _ ≤ 10 ^ (Nat.digits 10 m).length := h1
      _ ≤ 10 * m := h2
    have := Nat.le_of_mul_le_mul_left h3 (by norm_num)
    omega

/-- Horner evaluation of a zero-padding block stays at zero. -/
theorem foldl_replicate_zero : ∀ z : ℕ,
    List.foldl (fun a c => 10 * a + (c.toNat - 48)) 0 (List.replicate z '0') = 0 := by
  intro z
  induction z with
  | zero => rfl
  | succ n ih => simpa [List.replicate_succ] using ih

/-- The fractional block consists of digits. -/
theorem fracChars_digits (fp k : ℕ) : ∀ c ∈ fracChars fp k, c.isDigit = true := by
  intro c hc
  by_cases hk : k = 0
  · have : c = '0' := by simpa [fracChars, hk] using hc
    rw [this]; decide
  · rw [fracChars, if_neg hk] at hc
    rcases List.mem_append.mp hc with hcl | hcr
    · have : c = '0' := List.eq_of_mem_replicate hcl
      rw [this]; decide
    · rw [natCharsAux_eq fp fp le_rfl] at hcr
      obtain ⟨d, hd, he⟩ := List.mem_map.mp hcr
      subst he
      exact digitChar_isDigit (Nat.digits_lt_base (by norm_num) (List.mem_reverse.mp hd))

/-- Width of the fractional block. -/
theorem fracChars_length {fp k : ℕ} (hk : k ≠ 0) (h : fp < 10 ^ k) :
    (fracChars fp k).length = k := by
  rw [fracChars, if_neg hk]
  have hle : (Nat.digits 10 fp).length ≤ k := digits_length_le h
  simp only [List.length_append, List.length_replicate,
    natCharsAux_eq fp fp le_rfl, List.length_map, List.length_reverse]
  omega

/-- Decoding the fractional block recovers its value. -/
theorem digitsToNat_fracChars {fp k : ℕ} (hk : k ≠ 0) (_h : fp < 10 ^ k) :
    digitsToNat (fracChars fp k) = fp := by
  rw [fracChars, if_neg hk]
  unfold digitsToNat
  rw [List.foldl_append, foldl_replicate_zero]
  have : List.foldl (fun a c => 10 * a + (c.toNat - 48)) 0 (natCharsAux fp fp)
      = digitsToNat (natCharsAux fp fp) := rfl
  rw [this, natCharsAux_eq fp fp le_rfl,
    digitsToNat_map_digits (fun d hd => Nat.digits_lt_base (by norm_num) hd),
    Nat.ofDigits_digits]

/-- A divisor of a power of ten divides the power of ten with its own exponent. -/
theorem dvd_ten_pow_self {d m : ℕ} (h : d ∣ 10 ^ m) : d ∣ 10 ^ d := by
  have hd : d ≠ 0 := by
    rintro rfl
    exact absurd (Nat.eq_zero_of_zero_dvd h) (by positivity)
  rw [← Nat.factorization_le_iff_dvd hd (by positivity)]
  rw [Nat.factorization_pow]
  have h10 : d.factorization ≤ Nat.factorization (10 ^ m) :=
    (Nat.factorization_le_iff_dvd hd (by positivity)).mpr h
  rw [Nat.factorization_pow] at h10
  rw [Finsupp.le_def]
  intro p
  have hp := Finsupp.le_def.mp h10 p
  simp only [Finsupp.smul_apply, smul_eq_mul] at hp ⊢
  by_cases hz : (Nat.factorization 10) p = 0
  · simp [hz] at hp ⊢
    omega
  · have h1 : d.factorization p < d := Nat.factorization_lt p hd
    have h2 : 1 ≤ (Nat.factorization 10) p := Nat.one_le_iff_ne_zero.mpr hz
    calc d.factorization p ≤ d := le_of_lt h1
    _ = d * 1 := (mul_one d).symm
    _ ≤ d * (Nat.factorization 10) p := Nat.mul_le_mul_left d h2

/-- The denominator divides ten to the chosen rendering exponent. -/
theorem decExp_dvd {d m : ℕ} (h : d ∣ 10 ^ m) : d ∣ 10 ^ decExp d := by
  have hself : d ∣ 10 ^ d := dvd_ten_pow_self h
  unfold decExp
  cases hf : (List.range (d + 1)).find? (fun j => decide (d ∣ 10 ^ j)) with
  | none =>
    exfalso
    have hsome : ((List.range (d + 1)).find? (fun j => decide (d ∣ 10 ^ j))).isSome := by
      rw [List.find?_isSome]
      exact ⟨d, by simp, by simpa using hself⟩
    rw [hf] at hsome
    simp at hsome
  | some j =>
    simp only [Option.getD_some]
    simpa using List.find?_some hf

/-- The denominator of `mkRat` divides the given denominator. -/
theorem mkRat_den_dvd (z : Int) (n : ℕ) : (mkRat z n).den ∣ n := by
  rw [Rat.mkRat_eq_divInt]
  exact_mod_cast Rat.den_dvd z (n : ℤ)

/-- Values produced by the digit part of `float()` have a power-of-ten
denominator. -/
theorem pyFloatCore_den_dvd {sgn : Int} {r : List Char} {q : ℚ}
    (h : pyFloatCore sgn r = some q) : ∃ m, q.den ∣ 10 ^ m := by
  simp only [pyFloatCore] at h
  split at h
  · split at h
    · exact absurd h (by simp)
    · have hq : mkRat (sgn * (digitsToNat (r.takeWhile (·.isDigit)) : Int)) 1 = q :=
        Option.some.inj h
      exact ⟨0, by rw [← hq, pow_zero]; exact mkRat_den_dvd _ _⟩
  · split at h
    · rename_i fsr hfsr hcond
      have hq := Option.some.inj h
      refine ⟨(fsr.takeWhile (·.isDigit)).length, ?_⟩
      rw [← hq]
      exact mkRat_den_dvd _ _
    · exact absurd h (by simp)
  · exact absurd h (by simp)

theorem pyFloat_den_dvd {cs : List Char} {q : ℚ}
    (h : pyFloat cs = some q) : ∃ m, q.den ∣ 10 ^ m := by
  unfold pyFloat at h
  split at h
  · split at h
    · exact pyFloatCore_den_dvd h
    · split at h
      · exact pyFloatCore_den_dvd h
      · exact pyFloatCore_den_dvd h
  · exact pyFloatCore_den_dvd h

/-- Values produced by `parse_number` have a power-of-ten denominator. -/
theorem parseNumber_den_dvd {cs : List Char} {q : ℚ}
    (h : parse_number cs = some q) : ∃ m, q.den ∣ 10 ^ m := by
  unfold parse_number at h
  exact pyFloat_den_dvd h

/-- Taking the absolute value preserves the denominator. -/
theorem abs_den (q : ℚ) : |q|.den = q.den := by
  rcases abs_cases q with ⟨h1, _⟩ | ⟨h1, _⟩ <;> rw [h1]
  simp

/-- A digit character is none of the special characters handled around it. -/
theorem ne_of_isDigit {c : Char} (h : c.isDigit = true) :
    c ≠ '-' ∧ c ≠ '+' ∧ c ≠ '.' ∧ c ≠ ',' ∧ c ≠ '€' := by
  refine ⟨?_, ?_, ?_, ?_, ?_⟩ <;> rintro rfl <;> exact absurd h (by decide)

/-- `takeWhile` of an all-satisfying list is the whole list. -/
theorem takeWhile_all_eq {p : Char → Bool} : ∀ {l : List Char},
    (∀ c ∈ l, p c = true) → l.takeWhile p = l := by
  intro l
  induction l with
  | nil => intro _; rfl
  | cons c t ih =>
    intro h
    rw [List.takeWhile_cons, if_pos (h c (by simp))]
    rw [ih (fun x hx => h x (by simp [hx]))]

/-- Evaluation of the `float()` digit part on a string of the shape
`digits ++ "." ++ digits`. -/
theorem pyFloatCore_decimal (sgn : Int) (A B : List Char)
    (hA : ∀ c ∈ A, c.isDigit = true) (hAne : A ≠ [])
    (hB : ∀ c ∈ B, c.isDigit = true) :
    pyFloatCore sgn (A ++ '.' :: B)
      = some (mkRat (sgn * ((digitsToNat A : Int) * 10 ^ B.length + (digitsToNat B : Int)))
          (10 ^ B.length)) := by
  have hTW : (A ++ '.' :: B).takeWhile (·.isDigit) = A := by
    refine takeWhile_eq_take_of A.length (A ++ '.' :: B) ?_ ?_ |>.trans ?_
    · rw [List.take_left]
      simpa [List.all_eq_true] using hA
    · intro c hc
      rw [List.drop_left] at hc
      simp only [List.head?_cons, Option.some.injEq] at hc
      rw [← hc]
      rfl
    · exact List.take_left A ('.' :: B)
  have hDR : (A ++ '.' :: B).drop ((A ++ '.' :: B).takeWhile (·.isDigit)).length
      = '.' :: B := by
    rw [hTW]
    exact List.drop_left A ('.' :: B)
  simp only [pyFloatCore, hTW, hDR]
  have hfs : B.takeWhile (·.isDigit) = B := takeWhile_all_eq hB
  simp [hfs, hAne]

/-- Scaling the absolute value by the rendering power of ten and reading back the
numerator reproduces the value. -/
theorem abs_scaled {q : ℚ} {k : ℕ} (hd : q.den ∣ 10 ^ k) :
    mkRat (((rMul |q| (mkRat (10 ^ k) 1)).num.toNat : ℕ) : ℤ) (10 ^ k) = |q| := by
  have hden0 : ((|q|.den : ℚ)) ≠ 0 := Nat.cast_ne_zero.mpr (Rat.den_nz _)
  have hdvd : |q|.den ∣ 10 ^ k := by rw [abs_den]; exact hd
  have hpow : ((10 : ℚ)) ^ k ≠ 0 := by positivity
  have hmk1 : (mkRat (10 ^ k) 1 : ℚ) = (10 : ℚ) ^ k := by
    rw [Rat.mkRat_eq_div]
    push_cast
    simp
  have hx : rMul |q| (mkRat (10 ^ k) 1) = |q| * 10 ^ k := by rw [rMul_eq, hmk1]
  have hc : ((10 ^ k / |q|.den : ℕ) : ℚ) = (10 : ℚ) ^ k / (|q|.den : ℚ) := by
    rw [Nat.cast_div hdvd hden0]
    push_cast
    rfl
  have hz : |q| * 10 ^ k = ((|q|.num * ((10 ^ k / |q|.den : ℕ) : ℤ) : ℤ) : ℚ) := by
    rw [Int.cast_mul, Int.cast_natCast, hc]
    conv_lhs => rw [← Rat.num_div_den |q|]
    field_simp
  have hnum : (rMul |q| (mkRat (10 ^ k) 1)).num = |q|.num * ((10 ^ k / |q|.den : ℕ) : ℤ) := by
    rw [hx, hz, Rat.intCast_num]
  have hge : 0 ≤ (rMul |q| (mkRat (10 ^ k) 1)).num := by
    rw [hnum]
    have h1 : 0 ≤ |q|.num := Rat.num_nonneg.mpr (abs_nonneg q)
    positivity
  rw [Rat.mkRat_eq_div, Int.toNat_of_nonneg hge, hnum, Int.cast_mul, Int.cast_natCast, hc]
  push_cast
  rw [div_eq_iff hpow]
  conv_rhs => rw [← Rat.num_div_den |q|]
  field_simp

theorem hasChar_iff_mem {x : Char} : ∀ {l : List Char}, hasChar x l = true ↔ x ∈ l := by
  intro l
  induction l with
  | nil => simp [hasChar]
  | cons c t ih =>
    simp only [hasChar, Bool.or_eq_true, decide_eq_true_eq, List.mem_cons, ih]
    constructor
    · rintro (h | h)
      · exact Or.inl h.symm
      · exact Or.inr h
    · rintro (h | h)
      · exact Or.inl h.symm
      · exact Or.inr h

set_option maxRecDepth 1500 in
/-- Rendering and re-parsing is the identity on values with a power-of-ten
denominator whose rendering does not hit the grouped-thousands shape. -/
theorem parse_render {q : ℚ} {m : ℕ} (hden : q.den ∣ 10 ^ m)
    (hng : isGroupedThousands (renderFloat q) = false) :
    parse_number (renderFloat q) = some q := by
  have habs : |q|.den ∣ 10 ^ m := by rw [abs_den]; exact hden
  set k : ℕ := decExp |q|.den with hk
  have hkd : |q|.den ∣ 10 ^ k := decExp_dvd habs
  have hkd' : q.den ∣ 10 ^ k := by rw [← abs_den]; exact hkd
  set n : ℕ := (rMul |q| (mkRat (10 ^ k) 1)).num.toNat with hn
  have hrender : renderFloat q
      = (if q < 0 then ['-'] else [])
        ++ natChars (n / 10 ^ k) ++ '.' :: fracChars (n % 10 ^ k) k := rfl
  have hfp : n % 10 ^ k < 10 ^ k := Nat.mod_lt _ (by positivity)
  have hrclass : ∀ c ∈ renderFloat q, c.isDigit = true ∨ c = '.' ∨ c = '-' := by
    rw [hrender]
    intro c hc
    rcases List.mem_append.mp hc with hc1 | hc2
    · rcases List.mem_append.mp hc1 with hs | hi
      · right; right
        by_cases hq : q < 0
        · rw [if_pos hq] at hs
          simpa using hs
        · rw [if_neg hq] at hs
          simp at hs
      · exact Or.inl (natChars_digits _ c hi)
    · rcases List.mem_cons.mp hc2 with rfl | hc3
      · exact Or.inr (Or.inl rfl)
      · exact Or.inl (fracChars_digits _ _ c hc3)
  have hsp : ∀ c ∈ renderFloat q, isPySpace c = false := by
    intro c hc
    rcases hrclass c hc with h | h | h
    · exact isPySpace_of_isDigit h
    · rw [h]; decide
    · rw [h]; decide
  have hcomma : hasChar ',' (renderFloat q) = false := by
    rw [Bool.eq_false_iff]
    intro hm
    rcases hrclass ',' (hasChar_iff_mem.mp hm) with h | h | h
    · exact absurd h (by decide)
    · exact absurd h (by decide)
    · exact absurd h (by decide)
  have hdot : hasChar '.' (renderFloat q) = true := by
    rw [hasChar_iff_mem, hrender]
    simp
  have hstrip : stripSyms (renderFloat q) = renderFloat q := by
    unfold stripSyms
    rw [List.filter_eq_self]
    intro c hc
    rcases hrclass c hc with h | h | h
    · obtain ⟨_, hp, _, _, he⟩ := ne_of_isDigit h
      simp [he, hp, hsp c hc]
    · rw [h]; decide
    · rw [h]; decide
  simp only [parse_number, pyTrim_eq_self hsp, hcomma, hdot, hng, Bool.false_and,
    Bool.false_eq_true, if_false, if_true, hstrip]
  have hten0 : ∀ hk0 : k = 0, mkRat ((n : ℤ) * 10) (10 ^ 1) = mkRat ((n : ℤ)) (10 ^ k) := by
    intro hk0
    rw [hk0, Rat.mkRat_eq_div, Rat.mkRat_eq_div]
    push_cast
    rw [div_one, mul_div_assoc, div_self (by norm_num : (10 : ℚ) ≠ 0), mul_one]
  by_cases hq : q < 0
  · have hr2 : renderFloat q
        = '-' :: (natChars (n / 10 ^ k) ++ '.' :: fracChars (n % 10 ^ k) k) := by
      rw [hrender, if_pos hq]
      rfl
    rw [hr2]
    simp only [pyFloat, if_pos rfl, if_true]
    rw [pyFloatCore_decimal (-1) _ _ (natChars_digits _) (natChars_ne_nil _)
      (fracChars_digits _ _)]
    congr 1
    rw [digitsToNat_natChars]
    by_cases hk0 : k = 0
    · have hfc : fracChars (n % 10 ^ k) k = ['0'] := by rw [hk0]; rfl
      have hip : n / 10 ^ k = n := by rw [hk0]; simp
      rw [hfc, hip]
      have h0 : digitsToNat ['0'] = 0 := by decide
      rw [h0]
      simp only [List.length_singleton]
      have harg : (-1 : ℤ) * ((n : ℤ) * 10 ^ (1 : ℕ) + ((0 : ℕ) : ℤ)) = -((n : ℤ) * 10) := by
        push_cast
        ring
      rw [harg, ← Rat.neg_mkRat, hten0 hk0, abs_scaled hkd', abs_of_neg hq, neg_neg]
    · have hL : (fracChars (n % 10 ^ k) k).length = k := fracChars_length hk0 hfp
      rw [hL, digitsToNat_fracChars hk0 hfp]
      have h2 : n / 10 ^ k * 10 ^ k + n % 10 ^ k = n := by
        rw [mul_comm]
        exact Nat.div_add_mod n (10 ^ k)
      have h3 : ((n / 10 ^ k : ℕ) : ℤ) * 10 ^ k + ((n % 10 ^ k : ℕ) : ℤ) = ((n : ℕ) : ℤ) := by
        exact_mod_cast h2
      have harg : (-1 : ℤ) * (((n / 10 ^ k : ℕ) : ℤ) * 10 ^ k + ((n % 10 ^ k : ℕ) : ℤ))
          = -((n : ℕ) : ℤ) := by
        rw [h3, neg_one_mul]
      rw [harg, ← Rat.neg_mkRat, abs_scaled hkd', abs_of_neg hq, neg_neg]
  · have hqa : |q| = q := abs_of_nonneg (not_lt.mp hq)
    have hr2 : renderFloat q
        = natChars (n / 10 ^ k) ++ '.' :: fracChars (n % 10 ^ k) k := by
      rw [hrender, if_neg hq]
      rfl
    rw [hr2]
    obtain ⟨c0, r0, hA0⟩ : ∃ c0 r0, natChars (n / 10 ^ k) = c0 :: r0 := by
      cases hA : natChars (n / 10 ^ k) with
      | nil => exact absurd hA (natChars_ne_nil _)
      | cons a b => exact ⟨a, b, rfl⟩
    have hc0 : c0.isDigit = true := natChars_digits _ c0 (by rw [hA0]; simp)
    obtain ⟨hne1, hne2, _, _, _⟩ := ne_of_isDigit hc0
    rw [hA0, List.cons_append]
    simp only [pyFloat]
    rw [if_neg hne1, if_neg hne2, ← List.cons_append, ← hA0]
    rw [pyFloatCore_decimal 1 _ _ (natChars_digits _) (natChars_ne_nil _)
      (fracChars_digits _ _)]
    congr 1
    rw [digitsToNat_natChars]
    by_cases hk0 : k = 0
    · have hfc : fracChars (n % 10 ^ k) k = ['0'] := by rw [hk0]; rfl
      have hip : n / 10 ^ k = n := by rw [hk0]; simp
      rw [hfc, hip]
      have h0 : digitsToNat ['0'] = 0 := by decide
      rw [h0]
      simp only [List.length_singleton]
      have harg : (1 : ℤ) * ((n : ℤ) * 10 ^ (1 : ℕ) + ((0 : ℕ) : ℤ)) = (n : ℤ) * 10 := by
        push_cast
        ring
      rw [harg, hten0 hk0, abs_scaled hkd', hqa]
    · have hL : (fracChars (n % 10 ^ k) k).length = k := fracChars_length hk0 hfp
      rw [hL, digitsToNat_fracChars hk0 hfp]
      have h2 : n / 10 ^ k * 10 ^ k + n % 10 ^ k = n := by
        rw [mul_comm]
        exact Nat.div_add_mod n (10 ^ k)
      have h3 : ((n / 10 ^ k : ℕ) : ℤ) * 10 ^ k + ((n % 10 ^ k : ℕ) : ℤ) = ((n : ℕ) : ℤ) := by
        exact_mod_cast h2
      have harg : (1 : ℤ) * (((n / 10 ^ k : ℕ) : ℤ) * 10 ^ k + ((n % 10 ^ k : ℕ) : ℤ))
          = ((n : ℕ) : ℤ) := by
        rw [h3, one_mul]
      rw [harg, abs_scaled hkd', hqa]

/-- C8: the unconditional round-trip claim fails. `parse_number "1,451"` yields
`1.451`; Python renders that value as `"1.451"`, which the grouped-thousands branch
re-parses as the integer `1451`, so `parse(str(parse(x)))` differs from `parse(x)`. -/
theorem parse_render_counterexample :
    parse_number tokComma1451 = some (mkRat 1451 1000)
      ∧ renderFloat (mkRat 1451 1000) = tok1
      ∧ parse_number tok1 = some 1451
      ∧ ¬((1451 : ℚ) = mkRat 1451 1000) :=
  ⟨by decide, by decide, by decide, by decide⟩

/-- C8 (corrected): parse-then-render round-trips exactly on the values whose
rendering does not hit the grouped-thousands shape: if `parse_number` maps a token to
the value `q` and `q`'s standard float rendering is not of grouped-thousands shape,
then re-parsing the rendering returns exactly `q`. -/
theorem parse_render_idempotent {s : List Char} {q : ℚ}
    (h : parse_number s = some q)
    (hng : isGroupedThousands (renderFloat q) = false) :
    parse_number (renderFloat q) = some q := by
  obtain ⟨m, hm⟩ := parseNumber_den_dvd h
  exact parse_render hm hng

/-- Witness for the corrected round-trip: `"12,5"` parses to `12.5`, its rendering
`"12.5"` is not grouped-thousands shaped, and re-parsing it returns `12.5` again. -/
theorem parse_render_idempotent_witness :
    parse_number tok3 = some (mkRat 25 2)
      ∧ isGroupedThousands (renderFloat (mkRat 25 2)) = false
      ∧ parse_number (renderFloat (mkRat 25 2)) = some (mkRat 25 2) :=
  ⟨by decide, by decide, @parse_render_idempotent tok3 (mkRat 25 2) (by decide) (by decide)⟩
